import Mathlib

/-
Verification of the multi-scale CLEAN deconvolution library (package clean,
file clean.go) against its natural-language specification.

Shallow embedding conventions:
* Go float64 values are modelled as exact rationals (for the CLEAN core,
  the convolution engine and the parser) or as real numbers (for the
  Gaussian scale-space synthesis, which uses exp and sqrt).  Float rounding
  is abstracted away; where IEEE non-finiteness (Inf/NaN) is the point of a
  claim, division is modelled as an Option that is none exactly when the
  divisor is zero.
* Go slices of float64 rows become List (List _); reading an index out of
  bounds is totalized with List.getD (the Go code only reads in bounds on
  the inputs the claims quantify over).
* The goroutine/worker-pool parallel loops are embedded by their sequential
  denotation: every parallel phase in the source partitions disjoint index
  ranges and joins before the next phase, and the accumulations performed
  are order-independent additions, so the sequential fold is the intended
  denotation (the spec itself directs that the one unsynchronized
  accumulation, in convolve, be repaired rather than reproduced).
-/

namespace Clean

/-- Grid of values, Go type Image = [][]float64, indexed row-first. -/
abbrev Image (α : Type) : Type := List (List α)

/-- Stack of grids, one per scale, Go type PFS = []Image. -/
abbrev PFS (α : Type) : Type := List (Image α)

/-- Integer pixel coordinate, Go type Point.  Fields are integers because
the CLEAN core forms positions like maxPos.x + i - len/2, which can be
negative before the bounds check. -/
structure Point where
  x : Int
  y : Int
  deriving DecidableEq, Repr

/-- Read cell (x, y) of a grid, 0 outside the grid. -/
def cellVal {α : Type} [Zero α] (g : Image α) (x y : ℕ) : α :=
  (g.getD x []).getD y 0

/-- Row lengths of a grid; records both the number of rows and each row
width, so it is preserved verbatim by in-place cell updates. -/
def shape {α : Type} (g : Image α) : List ℕ :=
  g.map List.length

/-- Add v into cell (x, y) of a grid (Go: g[x][y] += v); out-of-bounds
indices leave the grid unchanged (the embedded code only generates
in-bounds updates or guards them explicitly). -/
def addCell {α : Type} [Zero α] [Add α] (g : Image α) (x y : ℕ) (v : α) : Image α :=
  g.set x ((g.getD x []).set y ((g.getD x []).getD y 0 + v))

/-- All-zero h × w grid (Go: make(Image, h) with rows make([]float64, w)). -/
def mkGrid {α : Type} [Zero α] (h w : ℕ) : Image α :=
  List.replicate h (List.replicate w (0 : α))

/-- Sum of every cell of a grid. -/
def gridSum {α : Type} [AddCommMonoid α] (g : Image α) : α :=
  (g.map List.sum).sum

/-- Worker count of the pool, from clean.go newWorkerPool:
workers = (runtime.NumCPU() * 3) / 4.  There is no minimum in the source. -/
def newWorkerPool (numCPU : ℕ) : ℕ :=
  numCPU * 3 / 4

/-- Range partitioner, from clean.go (p workerPool) divide.  Go computes
chunkSize := total / p.workers before anything else; when workers = 0 that
is an integer division by zero, which panics in Go, modelled as none. -/
def divide (workers total : ℕ) : Option (List (ℕ × ℕ)) :=
  if workers = 0 then none
  else
    let chunkSize := total / workers
    let remainder := total % workers
    some ((List.range workers).foldl
      (fun (acc : List (ℕ × ℕ) × ℕ) i =>
        let size := if i < remainder then chunkSize + 1 else chunkSize
        (acc.1 ++ [(acc.2, acc.2 + size)], acc.2 + size))
      ([], 0)).1

/-- Full 2D linear convolution, from clean.go convolve.  The Go version
splits the outer i-loop into worker chunks that cover [0, h1) exactly once
and join before returning; its sequential denotation is the plain nested
loop embedded here (the spec directs that the unsynchronized concurrent
accumulation be treated as a defect and repaired, not reproduced). -/
def convolve (img1 img2 : Image ℚ) : Image ℚ :=
  let h1 := img1.length
  let w1 := (img1.getD 0 []).length
  let h2 := img2.length
  let w2 := (img2.getD 0 []).length
  (List.range h1).foldl (fun acc i =>
    (List.range w1).foldl (fun acc j =>
      (List.range h2).foldl (fun acc k =>
        (List.range w2).foldl (fun acc l =>
          addCell acc (i + k) (j + l) (cellVal img1 i j * cellVal img2 k l))
          acc) acc) acc)
    (mkGrid (h1 + h2 - 1) (w1 + w2 - 1))

/-- Rectangularity predicate: g has exactly h rows, each of width w. -/
def rect {α : Type} (g : Image α) (h w : ℕ) : Prop :=
  g.length = h ∧ ∀ row ∈ g, row.length = w

/-- Loop gain of the CLEAN iteration, from clean.go: gainFactor = 0.1. -/
def gainFactor : ℚ := 1 / 10

/-- Largest cell value of a grid, from clean.go maxValue.  Go starts the
scan at -Inf; none models that sentinel (returned only when the grid has
no cells), and any real value compares greater than it, exactly as every
float compares greater than -Inf. -/
def maxValue (img : Image ℚ) : Option ℚ :=
  img.foldl (fun acc row =>
    row.foldl (fun a v =>
      match a with
      | none => some v
      | some b => if b < v then some v else a) acc) none

/-- Scale-bias rescaling, from clean.go rescaleDirtyMaps: builds a fresh
stack whose cell (i, j, k) is scaleBias[i] * dirtyMaps[i][j][k]. -/
def rescaleDirtyMaps (dirtyMaps : List (Image ℚ)) (scaleBias : List ℚ) :
    List (Image ℚ) :=
  dirtyMaps.enum.map (fun p =>
    p.2.map (fun row => row.map (fun v => scaleBias.getD p.1 0 * v)))

/-- Scale of the single largest rescaled value, from clean.go
identifyMaxScale; the scan starts at -Inf (none) and keeps the first
maximum encountered. -/
def identifyMaxScale (rescaledDirtyMaps : List (Image ℚ)) : ℕ :=
  (rescaledDirtyMaps.enum.foldl (fun (acc : ℕ × Option ℚ) p =>
    p.2.foldl (fun acc row =>
      row.foldl (fun acc val =>
        match acc.2 with
        | none => (p.1, some val)
        | some b => if b < val then (p.1, some val) else acc) acc) acc)
    (0, none)).1

/-- Position and value of the largest cell, from clean.go
identifyMaxPosition; none models the -Inf start value, which Go returns
together with Point{} for an empty grid. -/
def identifyMaxPosition (img : Image ℚ) : Point × Option ℚ :=
  img.enum.foldl (fun (acc : Point × Option ℚ) p =>
    p.2.enum.foldl (fun acc q =>
      match acc.2 with
      | none => (⟨(p.1 : Int), (q.1 : Int)⟩, some q.2)
      | some b =>
          if b < q.2 then (⟨(p.1 : Int), (q.1 : Int)⟩, some q.2) else acc)
      acc)
    (⟨0, 0⟩, none)

/-- Body of clean.go updateCleanComponents after the normalization factor
has been computed: adds gainFactor * normFactor * basisFunction[i][j] into
every in-bounds cell centered on maxPos. -/
def updateCleanComponentsWith (cleanComponents basisFunction : Image ℚ)
    (maxPos : Point) (normFactor : ℚ) : Image ℚ :=
  (List.range basisFunction.length).foldl (fun cc (i : ℕ) =>
    (List.range (basisFunction.getD i []).length).foldl (fun cc (j : ℕ) =>
      let x : Int := maxPos.x + (i : Int) - ((basisFunction.length / 2 : ℕ) : Int)
      let y : Int := maxPos.y + (j : Int)
        - (((basisFunction.getD i []).length / 2 : ℕ) : Int)
      if 0 ≤ x ∧ x < (cc.length : Int) ∧ 0 ≤ y ∧
          y < (((cc.getD x.toNat []).length : ℕ) : Int) then
        addCell cc x.toNat y.toNat
          (gainFactor * normFactor * cellVal basisFunction i j)
      else cc) cc) cleanComponents

/-- clean.go updateCleanComponents.  The source computes
normFactor := maxIntensity / maxValue(convolve(basisFunction, psf)) with
no guard; a -Inf maxValue (empty cross-convolution) gives -0 in Go float
arithmetic, modelled by normFactor 0, and the rational division totalizes
the zero-divisor case (the instrumented variant below tracks it). -/
def updateCleanComponents (cleanComponents basisFunction : Image ℚ)
    (maxPos : Point) (maxIntensity : ℚ) (psf : Image ℚ) : Image ℚ :=
  let normFactor :=
    match maxValue (convolve basisFunction psf) with
    | none => 0
    | some m => maxIntensity / m
  updateCleanComponentsWith cleanComponents basisFunction maxPos normFactor

/-- Division as performed on Go float64 values: a zero divisor produces a
non-finite result (Inf or NaN), modelled as none. -/
def fdiv (a b : ℚ) : Option ℚ :=
  if b = 0 then none else some (a / b)

/-- clean.go updateCleanComponents with float finiteness tracked: none
means the unguarded division maxIntensity / maxValue(crossConv) produced a
non-finite normalization factor, which the subsequent unconditional update
writes into the clean-component grid. -/
def updateCleanComponentsF (cleanComponents basisFunction : Image ℚ)
    (maxPos : Point) (maxIntensity : ℚ) (psf : Image ℚ) : Option (Image ℚ) :=
  match maxValue (convolve basisFunction psf) with
  | none => some (updateCleanComponentsWith cleanComponents basisFunction maxPos 0)
  | some m => (fdiv maxIntensity m).map
      (updateCleanComponentsWith cleanComponents basisFunction maxPos)

/-- Inner subtraction of clean.go updateDirtyMaps for one scale: subtracts
normFactor * crossConv[jj][kk] from every in-bounds cell centered on
maxPos.  The Go code walks (jj, kk) in 32 x 32 blocks; the blocked
traversal visits each pair exactly once, so the flat double loop is its
denotation, and x -= v is embedded as adding -v. -/
def subtractCross (g : Image ℚ) (crossConv : Image ℚ) (normFactor : ℚ)
    (maxPos : Point) : Image ℚ :=
  (List.range crossConv.length).foldl (fun g (jj : ℕ) =>
    (List.range (crossConv.getD 0 []).length).foldl (fun g (kk : ℕ) =>
      let x : Int := maxPos.x + (jj : Int) - ((crossConv.length / 2 : ℕ) : Int)
      let y : Int := maxPos.y + (kk : Int)
        - (((crossConv.getD 0 []).length / 2 : ℕ) : Int)
      if 0 ≤ x ∧ x < (g.length : Int) ∧ 0 ≤ y ∧
          y < (((g.getD x.toNat []).length : ℕ) : Int) then
        addCell g x.toNat y.toNat (-(normFactor * cellVal crossConv jj kk))
      else g) g) g

/-- clean.go updateDirtyMaps: for every scale i, cross-convolve the
selected basis function with that scale's PSF, normalize by the
cross-convolution's maximum (unguarded in the source, totalized as for
updateCleanComponents), and subtract the scaled pattern from dirty map i.
The Go version partitions the scales across workers, each owning disjoint
grids, joined before returning; the per-scale map is its denotation. -/
def updateDirtyMaps (dirtyMaps : List (Image ℚ)) (basisFunction : Image ℚ)
    (maxPos : Point) (maxIntensity : ℚ) (psfs : List (Image ℚ)) :
    List (Image ℚ) :=
  (List.range dirtyMaps.length).map (fun i =>
    let crossConv := convolve basisFunction (psfs.getD i [])
    let normFactor :=
      match maxValue crossConv with
      | none => 0
      | some m => gainFactor * maxIntensity / m
    subtractCross (dirtyMaps.getD i []) crossConv normFactor maxPos)

/-- clean.go stoppingCondition: true when every cell of every dirty map
has absolute value at most the 1e-5 threshold. -/
def stoppingCondition (dirtyMaps : List (Image ℚ)) : Bool :=
  dirtyMaps.all (fun img =>
    img.all (fun row => row.all (fun v => decide (|v| ≤ 1 / 100000))))

/-- clean.go addResiduals: a residual map sized like dirtyMaps[0]
accumulates every scale's dirty map, then the clean components and the
residual map are added cell-wise over the clean-component dimensions. -/
def addResiduals (cleanComponents : Image ℚ) (dirtyMaps : List (Image ℚ)) :
    Image ℚ :=
  let residualMap0 : Image ℚ :=
    (dirtyMaps.getD 0 []).map (fun row => List.replicate row.length (0 : ℚ))
  let residualMap := dirtyMaps.foldl (fun res img =>
    (List.range img.length).foldl (fun res i =>
      (List.range (img.getD i []).length).foldl (fun res j =>
        addCell res i j (cellVal img i j)) res) res) residualMap0
  cleanComponents.enum.map (fun p =>
    p.2.enum.map (fun q => q.2 + cellVal residualMap p.1 q.1))

/-- Iteration cap of the CLEAN loop, from clean.go: maxIterations = 50. -/
def maxIterations : ℕ := 50

/-- One fuel-indexed unfolding of the iteration loop of clean.go
MultiScaleClean, carrying (cleanComponents, currentDirtyMaps, iterCount).
A none maximum intensity models the -Inf scan result of an empty map,
which Go's maxIntensity < 1e-5 test sends to the break, like any value
below the threshold.  The loop leaves the state unchanged on convergence
check A, and stops after the update (without incrementing iterCount) when
stoppingCondition holds, exactly as the source. -/
def msLoop (psfs basisFuncs : List (Image ℚ)) (scaleBias : List ℚ) :
    ℕ → Image ℚ × List (Image ℚ) × ℕ → Image ℚ × List (Image ℚ) × ℕ
  | 0, st => st
  | fuel + 1, (cleanComponents, currentDirtyMaps, iterCount) =>
    let rescaled := rescaleDirtyMaps currentDirtyMaps scaleBias
    let maxScale := identifyMaxScale rescaled
    let pr := identifyMaxPosition (currentDirtyMaps.getD maxScale [])
    match pr.2 with
    | none => (cleanComponents, currentDirtyMaps, iterCount)
    | some maxIntensity =>
      if maxIntensity < 1 / 100000 then
        (cleanComponents, currentDirtyMaps, iterCount)
      else
        let cc := updateCleanComponents cleanComponents
          (basisFuncs.getD maxScale []) pr.1 maxIntensity
          (psfs.getD maxScale [])
        let dm := updateDirtyMaps currentDirtyMaps
          (basisFuncs.getD maxScale []) pr.1 maxIntensity psfs
        if stoppingCondition dm then (cc, dm, iterCount)
        else msLoop psfs basisFuncs scaleBias fuel (cc, dm, iterCount + 1)

/-- clean.go MultiScaleClean: all-zero clean components sized like
unclean[0], a deep copy of the input dirty maps as working state (in this
pure embedding the copy is the value itself; the heap embedding below
makes the copy explicit), at most maxIterations loop iterations, then
clean components plus summed residuals. -/
def MultiScaleClean (unclean psfs basisFuncs : List (Image ℚ))
    (scaleBias : List ℚ) : Image ℚ :=
  let cleanComponents : Image ℚ :=
    (unclean.getD 0 []).map (fun row => List.replicate row.length (0 : ℚ))
  let st := msLoop psfs basisFuncs scaleBias maxIterations
    (cleanComponents, unclean, 0)
  addResiduals st.1 st.2.1

/-- Heap of grid objects.  Go's Image values are slice headers pointing at
mutable backing arrays; the heap models one cell per Image object, so
in-place mutation and aliasing are explicit. -/
abbrev Heap : Type := List (Image ℚ)

/-- Read the grid object at reference r. -/
def hread (h : Heap) (r : ℕ) : Image ℚ :=
  h.getD r []

/-- Overwrite the grid object at reference r. -/
def hwrite (h : Heap) (r : ℕ) (v : Image ℚ) : Heap :=
  h.set r v

/-- Write a list of grids to a list of references, pointwise. -/
def writeAll (h : Heap) : List ℕ → List (Image ℚ) → Heap
  | r :: rs, v :: vs => writeAll (hwrite h r v) rs vs
  | _, _ => h

/-- Heap-threaded iteration loop of clean.go MultiScaleClean: identical
control flow to msLoop, but the working dirty maps and clean components
live in the heap at the references the caller allocated, and each update
statement writes back through those references exactly as the Go code
mutates currentDirtyMaps[i] and cleanComponents in place.  The input PSF
and basis stacks are only ever read. -/
def msLoopS (ccRef : ℕ) (dirtyRefs psfsR basisR : List ℕ)
    (scaleBias : List ℚ) : ℕ → Heap → ℕ → Heap × ℕ
  | 0, h, iter => (h, iter)
  | fuel + 1, h, iter =>
    let dirty := dirtyRefs.map (hread h)
    let rescaled := rescaleDirtyMaps dirty scaleBias
    let maxScale := identifyMaxScale rescaled
    let pr := identifyMaxPosition (dirty.getD maxScale [])
    match pr.2 with
    | none => (h, iter)
    | some maxIntensity =>
      if maxIntensity < 1 / 100000 then (h, iter)
      else
        let basis := hread h (basisR.getD maxScale 0)
        let h1 := hwrite h ccRef (updateCleanComponents (hread h ccRef)
          basis pr.1 maxIntensity (hread h (psfsR.getD maxScale 0)))
        let newDirty := updateDirtyMaps (dirtyRefs.map (hread h1)) basis
          pr.1 maxIntensity (psfsR.map (hread h1))
        let h2 := writeAll h1 dirtyRefs newDirty
        if stoppingCondition (dirtyRefs.map (hread h2)) then (h2, iter)
        else msLoopS ccRef dirtyRefs psfsR basisR scaleBias fuel h2 (iter + 1)

/-- Heap-threaded clean.go MultiScaleClean: the input stacks arrive as
references into the caller's heap; the function allocates a fresh all-zero
clean-component grid and fresh deep copies of the input dirty maps (Go:
make plus copy row by row), runs the loop against those fresh objects
only, and returns the final heap with the residual-added output. -/
def MultiScaleCleanS (h0 : Heap) (uncleanR psfsR basisR : List ℕ)
    (scaleBias : List ℚ) : Heap × Image ℚ :=
  let cleanComponents : Image ℚ :=
    (hread h0 (uncleanR.getD 0 0)).map
      (fun row => List.replicate row.length (0 : ℚ))
  let ccRef := h0.length
  let h1 := h0 ++ [cleanComponents]
  let dirtyRefs := (List.range uncleanR.length).map (fun i => h0.length + 1 + i)
  let h2 := h1 ++ uncleanR.map (hread h0)
  let res := msLoopS ccRef dirtyRefs psfsR basisR scaleBias maxIterations h2 0
  (res.1, addResiduals (hread res.1 ccRef) (dirtyRefs.map (hread res.1)))

/-- Gaussian cell value shared by the synthesis functions of clean.go:
dx and dy are Go int differences x - center and y - center converted to
float64, distance = sqrt(dx*dx + dy*dy), and the cell is
exp(-(distance*distance) / (2*sigma*sigma)). -/
noncomputable def gaussCell (sigma : ℝ) (center : ℕ) (x y : ℕ) : ℝ :=
  let dx : ℝ := (((x : ℤ) - (center : ℤ) : ℤ) : ℝ)
  let dy : ℝ := (((y : ℤ) - (center : ℤ) : ℤ) : ℝ)
  let distance := Real.sqrt (dx * dx + dy * dy)
  Real.exp (-(distance * distance) / (2 * sigma * sigma))

/-- Unnormalized PSF grid of scale s, from clean.go createPSFsFromACB:
sigma = 1.0 + s*0.5, center = imageSize / 2 (Go int division). -/
noncomputable def psfGridRaw (s imageSize : ℕ) : Image ℝ :=
  (List.range imageSize).map (fun x =>
    (List.range imageSize).map (fun y =>
      gaussCell (1 + (s : ℝ) * 0.5) (imageSize / 2) x y))

/-- Per-scale body of clean.go createPSFsFromACB: the Gaussian grid is
summed and, when the total is positive, every cell is divided by it. -/
noncomputable def psfGrid (s imageSize : ℕ) : Image ℝ :=
  let total := gridSum (psfGridRaw s imageSize)
  if 0 < total
  then (psfGridRaw s imageSize).map (fun row => row.map (fun v => v / total))
  else psfGridRaw s imageSize

/-- clean.go createPSFsFromACB: one normalized PSF grid per scale. -/
noncomputable def createPSFsFromACB (numScales imageSize : ℕ) : PFS ℝ :=
  (List.range numScales).map (fun s => psfGrid s imageSize)

/-- clean.go getUniqueFrequencies: first-occurrence deduplication.  The Go
code keeps a seen-map whose contents always equal the set of values
already appended to unique, so the membership test is the same check. -/
def getUniqueFrequencies (frequencies : List ℚ) : List ℚ :=
  frequencies.foldl
    (fun unique freq => if freq ∈ unique then unique else unique ++ [freq]) []

/-- Scale routing of clean.go createDirtyMapsFromACB:
scaleIndex := int(float64(i) / float64(U) * float64(numScales)), then
clamped to numScales - 1 when it reaches numScales.  Go's int() truncation
on the nonnegative quotient is the floor; the exact rational floor stands
in for the float64 computation. -/
def sampleScale (i U numScales : ℕ) : ℕ :=
  let s0 := (⌊((i : ℚ) / (U : ℚ)) * (numScales : ℚ)⌋).toNat
  if numScales ≤ s0 then numScales - 1 else s0

/-- Per-sample update grid of clean.go createDirtyMapsFromACB: the Go code
precomputes gaussianLookup[scale][x][y] with sigma = 1.0 + scale*2.0 and
builds localUpdates[x][y] = amp * gaussianLookup[scaleIndex][x][y]; this
is that composite. -/
noncomputable def sampleContribution (amp : ℝ) (scaleIndex imageSize : ℕ) :
    Image ℝ :=
  (List.range imageSize).map (fun x =>
    (List.range imageSize).map (fun y =>
      amp * gaussCell (1 + (scaleIndex : ℝ) * 2) (imageSize / 2) x y))

/-- Cell-wise sum of two equally sized grids; the Go code adds
localUpdates[x][y] into dirtyMaps[scaleIndex][x][y] over the full
imageSize by imageSize extent under a mutex. -/
def addGrid (g h : Image ℝ) : Image ℝ :=
  List.zipWith (fun r1 r2 => List.zipWith (· + ·) r1 r2) g h

/-- clean.go createDirtyMapsFromACB: numScales all-zero grids; every
amplitude sample i with i < U (checked before the division, Go continue)
is routed to sampleScale i U numScales and its contribution added into
that one dirty map.  The Go code processes disjoint sample chunks in
workers and merges under a mutex; since grid addition is commutative and
associative the sequential fold is its denotation. -/
noncomputable def createDirtyMapsFromACB (amps : List ℝ) (freqs : List ℚ)
    (numScales imageSize : ℕ) : PFS ℝ :=
  let uniqueFreqs := getUniqueFrequencies freqs
  (List.range amps.length).foldl (fun maps i =>
    if i < uniqueFreqs.length then
      let scaleIndex := sampleScale i uniqueFreqs.length numScales
      maps.set scaleIndex (addGrid (maps.getD scaleIndex [])
        (sampleContribution (amps.getD i 0) scaleIndex imageSize))
    else maps)
    (List.replicate numScales (mkGrid imageSize imageSize))

/-- Whitespace splitter behind the tokenizer: accumulates the current
token (reversed) and emits tokens at whitespace runs. -/
def splitWsAux : List Char → List Char → List (List Char)
  | [], acc => if acc = [] then [] else [acc.reverse]
  | c :: cs, acc =>
      if c = ' ' ∨ c = '\t' ∨ c = '\n' ∨ c = '\r' then
        (if acc = [] then splitWsAux cs [] else acc.reverse :: splitWsAux cs [])
      else splitWsAux cs (c :: acc)

/-- Go strings.Fields: split on whitespace runs, no empty tokens (the ACB
format only uses the four ASCII whitespace characters handled here). -/
def fields (s : String) : List String :=
  (splitWsAux s.data []).map (fun cs => String.mk cs)

/-- Go strings.HasPrefix. -/
def hasPref (pre s : String) : Bool :=
  pre.data.isPrefixOf s.data

/-- Nonempty all-digit character run parsed as a natural number. -/
def parseDigits (cs : List Char) : Option ℕ :=
  if cs = [] then none
  else if cs.all (fun c => c.isDigit) then
    some (cs.foldl (fun n c => 10 * n + (c.toNat - 48)) 0)
  else none

/-- Split a character run at each dot. -/
def splitDotAux : List Char → List Char → List (List Char)
  | [], acc => [acc.reverse]
  | c :: cs, acc =>
      if c = '.' then acc.reverse :: splitDotAux cs []
      else splitDotAux cs (c :: acc)

/-- Go strconv.ParseFloat restricted to plain decimal literals (optional
sign, digits, optional fractional part), returned exactly as a rational;
the ACB numeric fields are all of this shape, and anything else is a
parse failure, as in Go. -/
def parseFloat (s : String) : Option ℚ :=
  let signed : Bool × List Char :=
    match s.data with
    | '-' :: rest => (true, rest)
    | '+' :: rest => (false, rest)
    | _ => (false, s.data)
  let val : Option ℚ :=
    match splitDotAux signed.2 [] with
    | [ip] => (parseDigits ip).map (fun n => (n : ℚ))
    | [ip, fp] =>
        if ip = [] ∧ fp = [] then none
        else
          match (if ip = [] then some 0 else parseDigits ip),
                (if fp = [] then some 0 else parseDigits fp) with
          | some n, some f => some ((n : ℚ) + (f : ℚ) / (10 : ℚ) ^ fp.length)
          | _, _ => none
    | _ => none
  val.map (fun q => if signed.1 then -q else q)

/-- Parsed ACB file contents, from clean.go ACBData; numeric fields hold
exact rationals for the parsed float64 values. -/
structure ACBData where
  timeRange : String
  obsCode : String
  channels : String
  source : String
  bandwidth : String
  frequencies : List ℚ
  polarizations : List String
  amplitudes : List ℚ

/-- Initial ACBData of clean.go ParseACB: empty strings and empty lists. -/
def emptyACB : ACBData :=
  ⟨"", "", "", "", "", [], [], []⟩

/-- Per-line dispatch of clean.go ParseACB: line 1 fills the header
fields; source: lines fill source and bandwidth; bandfreq: lines append
frequencies (token after bandfreq:, requiring i+2 < len(parts), dropped on
parse failure) and polarizations (token after polar:); lines with the raw
prefix " 1 LM" append the 4th token as an amplitude. -/
def processLine (data : ACBData) (lineNum : ℕ) (line : String) : ACBData :=
  if lineNum = 1 then
    let parts := fields line
    parts.enum.foldl (fun d p =>
      if p.2 = "timerange:" ∧ p.1 + 4 < parts.length then
        { d with timeRange := String.intercalate " " ((parts.drop (p.1 + 1)).take 4) }
      else if p.2 = "obscode:" ∧ p.1 + 1 < parts.length then
        { d with obsCode := parts.getD (p.1 + 1) "" }
      else if p.2 = "chans:" ∧ p.1 + 3 < parts.length then
        { d with channels := String.intercalate " " ((parts.drop (p.1 + 1)).take 3) }
      else d) data
  else if hasPref "source:" line then
    let parts := fields line
    parts.enum.foldl (fun d p =>
      if p.2 = "source:" ∧ p.1 + 1 < parts.length then
        { d with source := parts.getD (p.1 + 1) "" }
      else if p.2 = "bandw:" ∧ p.1 + 2 < parts.length then
        { d with bandwidth :=
            parts.getD (p.1 + 1) "" ++ " " ++ parts.getD (p.1 + 2) "" }
      else d) data
  else if hasPref "bandfreq:" line then
    let parts := fields line
    parts.enum.foldl (fun d p =>
      if p.2 = "bandfreq:" ∧ p.1 + 2 < parts.length then
        match parseFloat (parts.getD (p.1 + 1) "") with
        | some freq => { d with frequencies := d.frequencies ++ [freq] }
        | none => d
      else if p.2 = "polar:" ∧ p.1 + 1 < parts.length then
        { d with polarizations :=
            d.polarizations ++ [parts.getD (p.1 + 1) ""] }
      else d) data
  else if hasPref " 1 LM" line then
    let parts := fields line
    if 4 ≤ parts.length then
      match parseFloat (parts.getD 3 "") with
      | some amp => { data with amplitudes := data.amplitudes ++ [amp] }
      | none => data
    else data
  else data

/-- clean.go ParseACB over the scanned lines of the file (1-based line
numbers, as the Go scanner counts them). -/
def ParseACB (lines : List String) : ACBData :=
  lines.enum.foldl (fun d p => processLine d (p.1 + 1) p.2) emptyACB

/-- Start offset of chunk k when total items are split across W workers. -/
def chunkStart (W T k : ℕ) : ℕ :=
  k * (T / W) + min k (T % W)

/-- Item count of chunk k when total items are split across W workers. -/
def chunkLen (W T k : ℕ) : ℕ :=
  T / W + if k < T % W then 1 else 0

end Clean

namespace Clean

theorem divide_foldl (W T : ℕ) (n : ℕ) :
    (List.range n).foldl
      (fun (acc : List (ℕ × ℕ) × ℕ) i =>
        let size := if i < T % W then T / W + 1 else T / W
        (acc.1 ++ [(acc.2, acc.2 + size)], acc.2 + size))
      ([], 0)
    = ((List.range n).map
        (fun k => (chunkStart W T k, chunkStart W T k + chunkLen W T k)),
       chunkStart W T n) := by
  induction n with
  | zero => simp [chunkStart]
  | succ n ih =>
      rw [List.range_succ, List.foldl_append, ih, List.map_append]
      refine Prod.ext ?_ ?_
      · simp only [List.foldl_cons, List.foldl_nil, List.map_cons, List.map_nil]
        congr 2
        simp only [chunkLen]
        split <;> rfl
      · simp only [List.foldl_cons, List.foldl_nil]
        show chunkStart W T n + _ = chunkStart W T (n + 1)
        simp only [chunkStart]
        rcases lt_or_le n (T % W) with h | h
        · rw [if_pos h]
          have h1 : min n (T % W) = n := by omega
          have h2 : min (n + 1) (T % W) = n + 1 := by omega
          rw [h1, h2, Nat.succ_mul]
          ring
        · rw [if_neg (by omega)]
          have h1 : min n (T % W) = T % W := by omega
          have h2 : min (n + 1) (T % W) = T % W := by omega
          rw [h1, h2, Nat.succ_mul]
          ring

theorem divide_eq_map (W T : ℕ) (hW : W ≠ 0) :
    divide W T = some ((List.range W).map
      (fun k => (chunkStart W T k, chunkStart W T k + chunkLen W T k))) := by
  unfold divide
  rw [if_neg hW]
  simp only [divide_foldl W T W]

theorem chunk_getD (W T k : ℕ) (hk : k < W) :
    (((List.range W).map
        (fun k => (chunkStart W T k, chunkStart W T k + chunkLen W T k))).getD
      k (0, 0))
    = (chunkStart W T k, chunkStart W T k + chunkLen W T k) := by
  rw [List.getD_eq_getElem?_getD, List.getElem?_map, List.getElem?_range hk]
  rfl

/-- C5: for every total T and worker count W ≥ 1, divide returns exactly W
contiguous, non-overlapping, gap-free ranges covering the interval from 0
to T, with one extra item in each of the first T mod W ranges, so every
range holds either floor(T/W) or floor(T/W)+1 items; the result is a pure
deterministic function of (T, W). -/
theorem divide_spec (W T : ℕ) (hW : 1 ≤ W) :
    ∃ cs : List (ℕ × ℕ),
      divide W T = some cs ∧
      cs.length = W ∧
      (∀ k, k < W → cs.getD k (0, 0)
          = (chunkStart W T k, chunkStart W T k + chunkLen W T k)) ∧
      (cs.getD 0 (0, 0)).1 = 0 ∧
      (∀ k, k + 1 < W → (cs.getD (k + 1) (0, 0)).1 = (cs.getD k (0, 0)).2) ∧
      (cs.getD (W - 1) (0, 0)).2 = T ∧
      (∀ k, k < W →
        (cs.getD k (0, 0)).2 - (cs.getD k (0, 0)).1
          = T / W + if k < T % W then 1 else 0) := by
  have hW0 : W ≠ 0 := by omega
  refine ⟨_, divide_eq_map W T hW0, ?_, ?_, ?_, ?_, ?_, ?_⟩
  · simp
  · intro k hk; exact chunk_getD W T k hk
  · rw [chunk_getD W T 0 (by omega)]
    simp [chunkStart]
  · intro k hk
    rw [chunk_getD W T (k + 1) hk, chunk_getD W T k (by omega)]
    show chunkStart W T (k + 1) = chunkStart W T k + chunkLen W T k
    simp only [chunkStart, chunkLen, Nat.succ_mul]
    rcases lt_or_le k (T % W) with h | h
    · have h1 : min k (T % W) = k := by omega
      have h2 : min (k + 1) (T % W) = k + 1 := by omega
      rw [h1, h2, if_pos h]; ring
    · have h1 : min k (T % W) = T % W := by omega
      have h2 : min (k + 1) (T % W) = T % W := by omega
      rw [h1, h2, if_neg (by omega)]; ring
  · rw [chunk_getD W T (W - 1) (by omega)]
    show chunkStart W T (W - 1) + chunkLen W T (W - 1) = T
    have hmod : T % W < W := Nat.mod_lt _ (by omega)
    have hdm : W * (T / W) + T % W = T := Nat.div_add_mod T W
    simp only [chunkStart, chunkLen]
    rcases lt_or_le (W - 1) (T % W) with h | h
    · have h1 : min (W - 1) (T % W) = W - 1 := by omega
      have h2 : T % W = W - 1 + 1 := by omega
      rw [h1, if_pos h]
      have : (W - 1) * (T / W) + (T / W) = W * (T / W) := by
        have hW1 : W - 1 + 1 = W := by omega
        calc (W - 1) * (T / W) + T / W = (W - 1 + 1) * (T / W) := by ring
          _ = W * (T / W) := by rw [hW1]
      omega
    · have h1 : min (W - 1) (T % W) = T % W := by omega
      rw [h1, if_neg (by omega)]
      have : (W - 1) * (T / W) + (T / W) = W * (T / W) := by
        have hW1 : W - 1 + 1 = W := by omega
        calc (W - 1) * (T / W) + T / W = (W - 1 + 1) * (T / W) := by ring
          _ = W * (T / W) := by rw [hW1]
      omega
  · intro k hk
    rw [chunk_getD W T k hk]
    show chunkStart W T k + chunkLen W T k - chunkStart W T k
        = T / W + if k < T % W then 1 else 0
    rw [Nat.add_sub_cancel_left]
    rfl

/-- Witness for C5 at W = 3, T = 7: chunks (0,3), (3,5), (5,7). -/
theorem divide_spec_witness :
    (1 ≤ 3) ∧
    (∃ cs : List (ℕ × ℕ),
      divide 3 7 = some cs ∧
      cs.length = 3 ∧
      (∀ k, k < 3 → cs.getD k (0, 0)
          = (chunkStart 3 7 k, chunkStart 3 7 k + chunkLen 3 7 k)) ∧
      (cs.getD 0 (0, 0)).1 = 0 ∧
      (∀ k, k + 1 < 3 → (cs.getD (k + 1) (0, 0)).1 = (cs.getD k (0, 0)).2) ∧
      (cs.getD (3 - 1) (0, 0)).2 = 7 ∧
      (∀ k, k < 3 →
        (cs.getD k (0, 0)).2 - (cs.getD k (0, 0)).1
          = 7 / 3 + if k < 7 % 3 then 1 else 0)) :=
  ⟨by decide, divide_spec 3 7 (by decide)⟩

theorem getD_set_gen {α : Type} (l : List α) (i j : ℕ) (a d : α) :
    (l.set i a).getD j d = if i = j ∧ j < l.length then a else l.getD j d := by
  simp only [List.getD_eq_getElem?_getD, List.getElem?_set]
  by_cases hij : i = j
  · subst hij
    by_cases hl : i < l.length
    · simp [hl]
    · have hnone : l[i]? = none := List.getElem?_eq_none (by omega)
      simp [hl, hnone]
  · simp [hij]

theorem getD_replicate_eq {α : Type} (n m : ℕ) (a d : α) :
    (List.replicate n a).getD m d = if m < n then a else d := by
  rw [List.getD_eq_getElem?_getD, List.getElem?_replicate]
  split <;> rfl

theorem set_getD_self {α : Type} (l : List α) (i : ℕ) (d : α) :
    l.set i (l.getD i d) = l := by
  induction l generalizing i with
  | nil => rfl
  | cons a t ih =>
      cases i with
      | zero => rfl
      | succ n =>
          show a :: t.set n (t.getD n d) = a :: t
          rw [ih]

theorem shape_getD {α : Type} (g : Image α) (x : ℕ) :
    (shape g).getD x 0 = (g.getD x []).length := by
  simp only [shape, List.getD_eq_getElem?_getD, List.getElem?_map]
  cases h : g[x]? with
  | none => simp
  | some r => simp

theorem shape_addCell {α : Type} [AddCommMonoid α] (g : Image α) (x y : ℕ) (v : α) :
    shape (addCell g x y v) = shape g := by
  unfold addCell
  show shape (g.set x ((g.getD x []).set y _)) = shape g
  unfold shape
  rw [List.map_set, List.length_set]
  have h : (g.getD x []).length = (g.map List.length).getD x 0 := by
    rw [show g.map List.length = shape g from rfl, shape_getD]
  rw [h, set_getD_self]

theorem cellVal_addCell {α : Type} [AddCommMonoid α] (g : Image α) (x y x2 y2 : ℕ) (v : α) :
    cellVal (addCell g x y v) x2 y2
      = cellVal g x2 y2 +
        if x = x2 ∧ y = y2 ∧ x2 < g.length ∧ y2 < (g.getD x2 []).length
        then v else 0 := by
  unfold cellVal addCell
  rw [getD_set_gen]
  by_cases hx : x = x2 ∧ x2 < g.length
  · obtain ⟨hx1, hx2⟩ := hx
    subst hx1
    rw [if_pos ⟨rfl, hx2⟩, getD_set_gen]
    by_cases hy : y = y2 ∧ y2 < (g.getD x []).length
    · obtain ⟨hy1, hy2⟩ := hy
      subst hy1
      rw [if_pos ⟨rfl, hy2⟩, if_pos ⟨rfl, rfl, hx2, hy2⟩]
    · rw [if_neg hy, if_neg (fun h => hy ⟨h.2.1, h.2.2.2⟩), add_zero]
  · rw [if_neg hx, if_neg (fun h => hx ⟨h.1, h.2.2.1⟩), add_zero]

theorem shape_foldl {α : Type} {ι : Type} (L : List ι)
    (F : Image α → ι → Image α) (hF : ∀ g i, shape (F g i) = shape g)
    (g : Image α) : shape (L.foldl F g) = shape g := by
  induction L generalizing g with
  | nil => rfl
  | cons i t ih => rw [List.foldl_cons, ih, hF]

theorem cellVal_foldl_adder {α : Type} [AddCommMonoid α] {ι : Type}
    (s : List ℕ) (x y : ℕ) (L : List ι)
    (F : Image α → ι → Image α) (δ : ι → α)
    (hshape : ∀ g i, shape (F g i) = shape g)
    (hadd : ∀ g, shape g = s → ∀ i, cellVal (F g i) x y = cellVal g x y + δ i)
    (g : Image α) (hg : shape g = s) :
    cellVal (L.foldl F g) x y = cellVal g x y + (L.map δ).sum := by
  induction L generalizing g with
  | nil => simp
  | cons i t ih =>
      rw [List.foldl_cons, ih (F g i) (by rw [hshape, hg]), hadd g hg i,
        List.map_cons, List.sum_cons, add_assoc]

theorem sum_map_range {M : Type} [AddCommMonoid M] (n : ℕ) (f : ℕ → M) :
    ((List.range n).map f).sum = ∑ i ∈ Finset.range n, f i := by
  induction n with
  | zero => rfl
  | succ n ih =>
      rw [List.range_succ, List.map_append, List.sum_append,
        Finset.sum_range_succ, ih]
      simp

theorem cellVal_mkGrid {α : Type} [AddCommMonoid α] (h w x y : ℕ) :
    cellVal (mkGrid h w : Image α) x y = 0 := by
  unfold cellVal mkGrid
  rw [getD_replicate_eq]
  split
  · rw [getD_replicate_eq]; split <;> rfl
  · rfl

theorem shape_mkGrid {α : Type} [Zero α] (h w : ℕ) :
    shape (mkGrid h w : Image α) = List.replicate h w := by
  unfold shape mkGrid
  rw [List.map_replicate, List.length_replicate]

theorem shape_convolve (A B : Image ℚ) :
    shape (convolve A B)
      = List.replicate (A.length + B.length - 1)
          ((A.getD 0 []).length + (B.getD 0 []).length - 1) := by
  simp only [convolve]
  rw [shape_foldl, shape_mkGrid]
  intro g i
  rw [shape_foldl]
  intro g j
  rw [shape_foldl]
  intro g k
  rw [shape_foldl]
  intro g l
  exact shape_addCell g _ _ _

theorem convolve_cellVal (A B : Image ℚ) (x y : ℕ)
    (hx : x < A.length + B.length - 1)
    (hy : y < (A.getD 0 []).length + (B.getD 0 []).length - 1) :
    cellVal (convolve A B) x y
      = ∑ i ∈ Finset.range A.length,
          ∑ j ∈ Finset.range (A.getD 0 []).length,
            ∑ k ∈ Finset.range B.length,
              ∑ l ∈ Finset.range (B.getD 0 []).length,
                if i + k = x ∧ j + l = y
                then cellVal A i j * cellVal B k l else 0 := by
  have hcong := fun (g : Image ℚ)
      (hg : shape g = List.replicate (A.length + B.length - 1)
        ((A.getD 0 []).length + (B.getD 0 []).length - 1)) => by
    have hlen : g.length = A.length + B.length - 1 := by
      have h1 := congrArg List.length hg
      simpa [shape] using h1
    have hrow : (g.getD x []).length
        = (A.getD 0 []).length + (B.getD 0 []).length - 1 := by
      have h1 := shape_getD g x
      rw [hg, getD_replicate_eq, if_pos hx] at h1
      exact h1.symm
    exact And.intro hlen hrow
  have level1 : ∀ (i j k : ℕ) (g : Image ℚ),
      shape g = List.replicate (A.length + B.length - 1)
        ((A.getD 0 []).length + (B.getD 0 []).length - 1) →
      cellVal ((List.range (B.getD 0 []).length).foldl
        (fun acc l => addCell acc (i + k) (j + l)
          (cellVal A i j * cellVal B k l)) g) x y
        = cellVal g x y +
          ((List.range (B.getD 0 []).length).map
            (fun l => if i + k = x ∧ j + l = y
              then cellVal A i j * cellVal B k l else 0)).sum := by
    intro i j k g hg
    refine cellVal_foldl_adder _ x y _ _ _
      (fun g l => shape_addCell g _ _ _) ?_ g hg
    intro g hg l
    rw [cellVal_addCell]
    obtain ⟨hlen, hrow⟩ := hcong g hg
    rw [hlen, hrow]
    have hc : (i + k = x ∧ j + l = y ∧ x < A.length + B.length - 1 ∧
        y < (A.getD 0 []).length + (B.getD 0 []).length - 1)
        ↔ (i + k = x ∧ j + l = y) := by
      constructor
      · rintro ⟨ha, hb, _, _⟩; exact ⟨ha, hb⟩
      · rintro ⟨ha, hb⟩; exact ⟨ha, hb, hx, hy⟩
    rw [if_congr hc rfl rfl]
  have level2 : ∀ (i j : ℕ) (g : Image ℚ),
      shape g = List.replicate (A.length + B.length - 1)
        ((A.getD 0 []).length + (B.getD 0 []).length - 1) →
      cellVal ((List.range B.length).foldl
        (fun acc k => (List.range (B.getD 0 []).length).foldl
          (fun acc l => addCell acc (i + k) (j + l)
            (cellVal A i j * cellVal B k l)) acc) g) x y
        = cellVal g x y +
          ((List.range B.length).map
            (fun k => ((List.range (B.getD 0 []).length).map
              (fun l => if i + k = x ∧ j + l = y
                then cellVal A i j * cellVal B k l else 0)).sum)).sum := by
    intro i j g hg
    refine cellVal_foldl_adder _ x y _ _ _
      (fun g k => shape_foldl _ _ (fun g l => shape_addCell g _ _ _) g) ?_ g hg
    intro g hg k
    exact level1 i j k g hg
  have level3 : ∀ (i : ℕ) (g : Image ℚ),
      shape g = List.replicate (A.length + B.length - 1)
        ((A.getD 0 []).length + (B.getD 0 []).length - 1) →
      cellVal ((List.range (A.getD 0 []).length).foldl
        (fun acc j => (List.range B.length).foldl
          (fun acc k => (List.range (B.getD 0 []).length).foldl
            (fun acc l => addCell acc (i + k) (j + l)
              (cellVal A i j * cellVal B k l)) acc) acc) g) x y
        = cellVal g x y +
          ((List.range (A.getD 0 []).length).map
            (fun j => ((List.range B.length).map
              (fun k => ((List.range (B.getD 0 []).length).map
                (fun l => if i + k = x ∧ j + l = y
                  then cellVal A i j * cellVal B k l else 0)).sum)).sum)).sum := by
    intro i g hg
    refine cellVal_foldl_adder _ x y _ _ _
      (fun g j => shape_foldl _ _
        (fun g k => shape_foldl _ _ (fun g l => shape_addCell g _ _ _) g) g)
      ?_ g hg
    intro g hg j
    exact level2 i j g hg
  have level4 :
      cellVal ((List.range A.length).foldl
        (fun acc i => (List.range (A.getD 0 []).length).foldl
          (fun acc j => (List.range B.length).foldl
            (fun acc k => (List.range (B.getD 0 []).length).foldl
              (fun acc l => addCell acc (i + k) (j + l)
                (cellVal A i j * cellVal B k l)) acc) acc) acc)
        (mkGrid (A.length + B.length - 1)
          ((A.getD 0 []).length + (B.getD 0 []).length - 1))) x y
        = ((List.range A.length).map
            (fun i => ((List.range (A.getD 0 []).length).map
              (fun j => ((List.range B.length).map
                (fun k => ((List.range (B.getD 0 []).length).map
                  (fun l => if i + k = x ∧ j + l = y
                    then cellVal A i j * cellVal B k l else 0)).sum)).sum)).sum)).sum := by
    rw [cellVal_foldl_adder _ x y _ _ _
      (fun g i => shape_foldl _ _
        (fun g j => shape_foldl _ _
          (fun g k => shape_foldl _ _ (fun g l => shape_addCell g _ _ _) g) g) g)
      (fun g hg i => level3 i g hg)
      (mkGrid _ _) (shape_mkGrid _ _), cellVal_mkGrid, zero_add]
  show cellVal (convolve A B) x y = _
  simp only [convolve]
  rw [level4]
  simp only [sum_map_range]

/-- C1: for rectangular A (h1 by w1) and B (h2 by w2), all dimensions at
least 1, convolve A B is a grid with h1+h2-1 rows each of width w1+w2-1,
whose cell (m, n) is the sum of A[i][j]*B[k][l] over all indices with
i+k = m and j+l = n: the standard full 2D linear convolution, with no
wraparound and no normalization; in particular [[2]] convolved with [[3]]
is [[6]]. -/
theorem convolve_spec (A B : Image ℚ) (h1 w1 h2 w2 : ℕ)
    (hA : rect A h1 w1) (hB : rect B h2 w2)
    (hh1 : 1 ≤ h1) (hw1 : 1 ≤ w1) (hh2 : 1 ≤ h2) (hw2 : 1 ≤ w2) :
    (convolve A B).length = h1 + h2 - 1 ∧
    (∀ row ∈ convolve A B, row.length = w1 + w2 - 1) ∧
    (∀ m n, m < h1 + h2 - 1 → n < w1 + w2 - 1 →
      cellVal (convolve A B) m n
        = ∑ i ∈ Finset.range h1, ∑ j ∈ Finset.range w1,
            ∑ k ∈ Finset.range h2, ∑ l ∈ Finset.range w2,
              if i + k = m ∧ j + l = n
              then cellVal A i j * cellVal B k l else 0) ∧
    convolve [[(2 : ℚ)]] [[(3 : ℚ)]] = [[(6 : ℚ)]] := by
  have hconcrete : convolve [[(2 : ℚ)]] [[(3 : ℚ)]] = [[(6 : ℚ)]] := by
    norm_num [convolve, addCell, cellVal, mkGrid, List.range_succ]
  obtain ⟨hAh, hAw⟩ := hA
  obtain ⟨hBh, hBw⟩ := hB
  have hA0 : (A.getD 0 []).length = w1 := by
    have hmem : A.getD 0 [] ∈ A := by
      rw [List.getD_eq_getElem?_getD]
      cases h : A[0]? with
      | none =>
          exfalso
          have := List.getElem?_eq_none_iff.mp h
          omega
      | some r =>
          simpa using List.getElem?_mem h
    exact hAw _ hmem
  have hB0 : (B.getD 0 []).length = w2 := by
    have hmem : B.getD 0 [] ∈ B := by
      rw [List.getD_eq_getElem?_getD]
      cases h : B[0]? with
      | none =>
          exfalso
          have := List.getElem?_eq_none_iff.mp h
          omega
      | some r =>
          simpa using List.getElem?_mem h
    exact hBw _ hmem
  have hsh := shape_convolve A B
  rw [hAh, hBh, hA0, hB0] at hsh
  refine ⟨?_, ?_, ?_, ?_⟩
  · have h1' := congrArg List.length hsh
    simpa [shape] using h1'
  · intro row hrow
    have hmem : row.length ∈ shape (convolve A B) := List.mem_map_of_mem _ hrow
    rw [hsh] at hmem
    exact List.eq_of_mem_replicate hmem
  · intro m n hm hn
    have h := convolve_cellVal A B m n
      (by rw [hAh, hBh]; exact hm) (by rw [hA0, hB0]; exact hn)
    rw [hAh, hBh, hA0, hB0] at h
    exact h
  · exact hconcrete

/-- Witness for C1 at A = [[2]], B = [[3]], all dimensions 1. -/
theorem convolve_spec_witness :
    (rect [[(2 : ℚ)]] 1 1 ∧ rect [[(3 : ℚ)]] 1 1) ∧
    convolve [[(2 : ℚ)]] [[(3 : ℚ)]] = [[(6 : ℚ)]] :=
  ⟨⟨by constructor <;> simp [rect], by constructor <;> simp [rect]⟩,
    (convolve_spec [[(2 : ℚ)]] [[(3 : ℚ)]] 1 1 1 1
      ⟨by simp [rect], by simp⟩ ⟨by simp [rect], by simp⟩
      (by decide) (by decide) (by decide) (by decide)).2.2.2⟩

/-- C6: the claim that the configured worker count is always at least 1
fails on the source.  newWorkerPool has no minimum: with one CPU it
configures (1 * 3) / 4 = 0 workers, and divide then divides by zero
(a Go integer-division panic, modelled as none). -/
theorem newWorkerPool_single_cpu :
    newWorkerPool 1 = 0 ∧ divide (newWorkerPool 1) 5 = none := by
  constructor
  · rfl
  · rfl

/-- C3: the claim that the CLEAN core guards the normalization division
when a cross-convolution has maximum value zero fails on the source.
updateCleanComponents divides maxIntensity by maxValue(convolve(basis,
psf)) unconditionally.  At basisFunction [[1]], psf [[0]], maxIntensity 1
the cross-convolution is [[0]] with maximum 0, and the division produces
a non-finite factor (Go: 1.0/0.0 = +Inf, modelled none) that the
unconditional update writes into the clean-component grid. -/
theorem updateCleanComponentsF_unguarded :
    maxValue (convolve [[(1 : ℚ)]] [[(0 : ℚ)]]) = some 0 ∧
    updateCleanComponentsF [[(0 : ℚ)]] [[(1 : ℚ)]] ⟨0, 0⟩ 1 [[(0 : ℚ)]] = none := by
  have h : convolve [[(1 : ℚ)]] [[(0 : ℚ)]] = [[(0 : ℚ)]] := by
    norm_num [convolve, addCell, cellVal, mkGrid, List.range_succ]
  constructor
  · rw [h]
    rfl
  · unfold updateCleanComponentsF
    rw [h]
    norm_num [maxValue, fdiv]

theorem foldl_inv {β : Type} {ι : Type} (P : β → Prop) (L : List ι)
    (F : β → ι → β) (hF : ∀ b, P b → ∀ i ∈ L, P (F b i)) (b : β) (hb : P b) :
    P (L.foldl F b) := by
  induction L generalizing b with
  | nil => exact hb
  | cons i t ih =>
      exact ih (fun b hb j hj => hF b hb j (List.mem_cons_of_mem i hj))
        (F b i) (hF b hb i (List.mem_cons_self i t))

theorem foldl_id {β : Type} {ι : Type} (L : List ι) (F : β → ι → β)
    (hF : ∀ b, ∀ i ∈ L, F b i = b) (b : β) : L.foldl F b = b := by
  induction L generalizing b with
  | nil => rfl
  | cons i t ih =>
      rw [List.foldl_cons, hF b i (List.mem_cons_self i t)]
      exact ih (fun b j hj => hF b j (List.mem_cons_of_mem i hj)) b

theorem getD_default_or_mem {α : Type} (l : List α) (n : ℕ) (d : α) :
    l.getD n d = d ∨ l.getD n d ∈ l := by
  rw [List.getD_eq_getElem?_getD]
  cases h : l[n]? with
  | none => left; rfl
  | some a =>
      right
      simpa using List.getElem?_mem h

theorem snd_mem_of_mem_enumFrom {α : Type} (l : List α) (n : ℕ)
    (p : ℕ × α) (hp : p ∈ l.enumFrom n) : p.2 ∈ l := by
  induction l generalizing n with
  | nil => simp [List.enumFrom] at hp
  | cons a t ih =>
      rw [List.enumFrom_cons] at hp
      rcases List.mem_cons.mp hp with h | h
      · subst h
        exact List.mem_cons_self a t
      · exact List.mem_cons_of_mem a (ih (n + 1) h)

theorem snd_mem_of_mem_enum {α : Type} (l : List α) (p : ℕ × α)
    (hp : p ∈ l.enum) : p.2 ∈ l :=
  snd_mem_of_mem_enumFrom l 0 p hp

theorem cellVal_zero_of_zero (img : Image ℚ)
    (hz : ∀ row ∈ img, ∀ v ∈ row, v = (0 : ℚ)) (x y : ℕ) :
    cellVal img x y = 0 := by
  unfold cellVal
  rcases getD_default_or_mem img x [] with h | h
  · rw [h]; rfl
  · rcases getD_default_or_mem (img.getD x []) y 0 with h2 | h2
    · exact h2
    · exact hz _ h _ h2

theorem addCell_zero {α : Type} [AddCommMonoid α] (g : Image α) (x y : ℕ) :
    addCell g x y 0 = g := by
  unfold addCell
  rw [add_zero, set_getD_self, set_getD_self]

theorem identifyMaxPosition_zero (img : Image ℚ)
    (hz : ∀ row ∈ img, ∀ v ∈ row, v = (0 : ℚ)) :
    (identifyMaxPosition img).2 = none ∨
    (identifyMaxPosition img).2 = some 0 := by
  unfold identifyMaxPosition
  refine foldl_inv
    (fun (acc : Point × Option ℚ) => acc.2 = none ∨ acc.2 = some 0) _ _ ?_ _
    (Or.inl rfl)
  intro acc hacc p hp
  refine foldl_inv
    (fun (acc : Point × Option ℚ) => acc.2 = none ∨ acc.2 = some 0) _ _ ?_
    acc hacc
  intro acc2 hacc2 q hq
  have hq0 : q.2 = 0 := hz _ (snd_mem_of_mem_enum img p hp) _
    (snd_mem_of_mem_enum p.2 q hq)
  rcases acc2 with ⟨pos, o⟩
  rcases hacc2 with h | h <;> simp only at h <;> subst h
  · right
    simp [hq0]
  · simp only [hq0, lt_irrefl, if_neg]
    right
    rfl

theorem msLoop_zero (psfs basisFuncs : List (Image ℚ)) (scaleBias : List ℚ)
    (fuel : ℕ) (cc : Image ℚ) (dirty : List (Image ℚ)) (iter : ℕ)
    (hz : ∀ g ∈ dirty, ∀ row ∈ g, ∀ v ∈ row, v = (0 : ℚ)) :
    msLoop psfs basisFuncs scaleBias fuel (cc, dirty, iter)
      = (cc, dirty, iter) := by
  cases fuel with
  | zero => rfl
  | succ fuel =>
      have hzg : ∀ row ∈ dirty.getD
          (identifyMaxScale (rescaleDirtyMaps dirty scaleBias)) [],
          ∀ v ∈ row, v = (0 : ℚ) := by
        rcases getD_default_or_mem dirty
            (identifyMaxScale (rescaleDirtyMaps dirty scaleBias)) [] with h | h
        · rw [h]
          intro row hrow
          simp at hrow
        · exact hz _ h
      have ho := identifyMaxPosition_zero _ hzg
      show msLoop psfs basisFuncs scaleBias (fuel + 1) (cc, dirty, iter)
        = (cc, dirty, iter)
      rw [msLoop]
      rcases ho with h | h <;> rw [h]
      norm_num

theorem map_rows_zero (g : Image ℚ) (h w : ℕ) (hlen : g.length = h)
    (hrow : ∀ row ∈ g, row.length = w) :
    g.map (fun row => List.replicate row.length (0 : ℚ))
      = List.replicate h (List.replicate w (0 : ℚ)) := by
  subst hlen
  induction g with
  | nil => rfl
  | cons a t ih =>
      rw [List.map_cons, List.length_cons, List.replicate_succ]
      rw [hrow a (List.mem_cons_self a t),
        ih (fun row hr => hrow row (List.mem_cons_of_mem a hr))]

theorem addResiduals_zero (unclean : List (Image ℚ)) (h w : ℕ)
    (hne : unclean ≠ [])
    (hsh : ∀ g ∈ unclean, g.length = h ∧ ∀ row ∈ g, row.length = w)
    (hz : ∀ g ∈ unclean, ∀ row ∈ g, ∀ v ∈ row, v = (0 : ℚ)) :
    addResiduals
      ((unclean.getD 0 []).map (fun row => List.replicate row.length (0 : ℚ)))
      unclean
      = List.replicate h (List.replicate w (0 : ℚ)) := by
  obtain ⟨a, t, rfl⟩ : ∃ a t, unclean = a :: t := by
    cases unclean with
    | nil => exact absurd rfl hne
    | cons a t => exact ⟨a, t, rfl⟩
  obtain ⟨hal, har⟩ := hsh a (List.mem_cons_self a t)
  have hcc : (a.map fun row => List.replicate row.length (0 : ℚ))
      = List.replicate h (List.replicate w (0 : ℚ)) :=
    map_rows_zero a h w hal har
  have hgetD : (a :: t).getD 0 [] = a := rfl
  simp only [addResiduals, hgetD]
  have hfold : (a :: t).foldl (fun res img =>
      (List.range img.length).foldl (fun res i =>
        (List.range (img.getD i []).length).foldl (fun res j =>
          addCell res i j (cellVal img i j)) res) res)
      (a.map fun row => List.replicate row.length (0 : ℚ))
      = a.map fun row => List.replicate row.length (0 : ℚ) := by
    refine foldl_id _ _ ?_ _
    intro res img himg
    refine foldl_id _ _ ?_ _
    intro res i hi
    refine foldl_id _ _ ?_ _
    intro res j hj
    rw [cellVal_zero_of_zero img (hz img himg) i j, addCell_zero]
  rw [hfold, hcc]
  refine List.eq_replicate.mpr ⟨?_, ?_⟩
  · simp
  · intro b hb
    obtain ⟨p, hp, rfl⟩ := List.mem_map.mp hb
    have hp2 : p.2 = List.replicate w (0 : ℚ) :=
      List.eq_of_mem_replicate (snd_mem_of_mem_enum _ p hp)
    refine List.eq_replicate.mpr ⟨?_, ?_⟩
    · simp [hp2]
    · intro c hc
      obtain ⟨q, hq, rfl⟩ := List.mem_map.mp hc
      have hq2 : q.2 = (0 : ℚ) := by
        have := snd_mem_of_mem_enum _ q hq
        rw [hp2] at this
        exact List.eq_of_mem_replicate this
      have hcell : cellVal (List.replicate h (List.replicate w (0 : ℚ))) p.1 q.1
          = 0 := cellVal_mkGrid h w p.1 q.1
      rw [hq2, hcell, add_zero]

/-- C8: when every cell of every input dirty map is zero, the CLEAN loop
stops at convergence check A in its first iteration (the maximum intensity
found, 0 or the -Inf of an empty scan, is below 1e-5), leaving the
clean components, the working dirty maps and the iteration counter (0)
untouched, and MultiScaleClean returns an all-zero grid. -/
theorem MultiScaleClean_zero (unclean psfs basisFuncs : List (Image ℚ))
    (scaleBias : List ℚ) (h w : ℕ)
    (hne : unclean ≠ [])
    (hsh : ∀ g ∈ unclean, g.length = h ∧ ∀ row ∈ g, row.length = w)
    (hz : ∀ g ∈ unclean, ∀ row ∈ g, ∀ v ∈ row, v = (0 : ℚ)) :
    msLoop psfs basisFuncs scaleBias maxIterations
      ((unclean.getD 0 []).map (fun row => List.replicate row.length (0 : ℚ)),
        unclean, 0)
      = ((unclean.getD 0 []).map (fun row => List.replicate row.length (0 : ℚ)),
          unclean, 0) ∧
    MultiScaleClean unclean psfs basisFuncs scaleBias
      = List.replicate h (List.replicate w (0 : ℚ)) := by
  have hloop := msLoop_zero psfs basisFuncs scaleBias maxIterations
    ((unclean.getD 0 []).map (fun row => List.replicate row.length (0 : ℚ)))
    unclean 0 hz
  refine ⟨hloop, ?_⟩
  simp only [MultiScaleClean]
  rw [hloop]
  exact addResiduals_zero unclean h w hne hsh hz

/-- Witness for C8 at the one-scale, 1 by 1, all-zero stack. -/
theorem MultiScaleClean_zero_witness :
    (([[[(0 : ℚ)]]] : List (Image ℚ)) ≠ [] ∧
      (∀ g ∈ ([[[(0 : ℚ)]]] : List (Image ℚ)), g.length = 1 ∧
        ∀ row ∈ g, row.length = 1) ∧
      (∀ g ∈ ([[[(0 : ℚ)]]] : List (Image ℚ)), ∀ row ∈ g, ∀ v ∈ row,
        v = (0 : ℚ))) ∧
    MultiScaleClean [[[(0 : ℚ)]]] [[[(1 : ℚ)]]] [[[(1 : ℚ)]]] [1]
      = List.replicate 1 (List.replicate 1 (0 : ℚ)) :=
  ⟨⟨by decide, by decide, by decide⟩,
    (MultiScaleClean_zero [[[(0 : ℚ)]]] [[[(1 : ℚ)]]] [[[(1 : ℚ)]]] [1] 1 1
      (by decide) (by decide) (by decide)).2⟩

theorem hread_hwrite_ne (h : Heap) (r r2 : ℕ) (v : Image ℚ) (hne : r ≠ r2) :
    hread (hwrite h r v) r2 = hread h r2 := by
  unfold hread hwrite
  rw [getD_set_gen, if_neg (fun hc => hne hc.1)]

theorem hread_writeAll_ne (rs : List ℕ) (vs : List (Image ℚ)) (h : Heap)
    (r : ℕ) (hr : ∀ s ∈ rs, s ≠ r) :
    hread (writeAll h rs vs) r = hread h r := by
  induction rs generalizing vs h with
  | nil => cases vs <;> rfl
  | cons s rs ih =>
      cases vs with
      | nil => rfl
      | cons v vs =>
          show hread (writeAll (hwrite h s v) rs vs) r = hread h r
          rw [ih vs (hwrite h s v) (fun u hu => hr u (List.mem_cons_of_mem s hu)),
            hread_hwrite_ne h s r v (hr s (List.mem_cons_self s rs))]

theorem msLoopS_frame (ccRef : ℕ) (dirtyRefs psfsR basisR : List ℕ)
    (scaleBias : List ℚ) (L : ℕ) (hcc : L ≤ ccRef)
    (hd : ∀ s ∈ dirtyRefs, L ≤ s) (fuel : ℕ) :
    ∀ (h : Heap) (iter r : ℕ), r < L →
      hread ((msLoopS ccRef dirtyRefs psfsR basisR scaleBias fuel h iter).1) r
        = hread h r := by
  induction fuel with
  | zero => intro h iter r hr; rfl
  | succ fuel ih =>
      intro h iter r hr
      have hpres : ∀ (v : Image ℚ) (vs : List (Image ℚ)),
          hread (writeAll (hwrite h ccRef v) dirtyRefs vs) r = hread h r := by
        intro v vs
        rw [hread_writeAll_ne dirtyRefs vs _ r
            (fun s hs => by have := hd s hs; omega),
          hread_hwrite_ne h ccRef r v (by omega)]
      show hread ((msLoopS ccRef dirtyRefs psfsR basisR scaleBias (fuel + 1)
        h iter).1) r = hread h r
      simp only [msLoopS]
      split
      · rfl
      · split
        · rfl
        · split
          · exact hpres _ _
          · rw [ih _ (iter + 1) r hr]
            exact hpres _ _

/-- C7: MultiScaleClean mutates only its internal state.  In the
heap-threaded embedding, every grid object that existed before the call,
in particular every grid of the input dirty-map, PSF and basis-function
stacks, is unchanged after it returns: the loop works on freshly allocated
deep copies of the dirty maps, and the scale-bias rescaling builds a
transient stack that is never written back. -/
theorem MultiScaleCleanS_preserves_inputs (h0 : Heap)
    (uncleanR psfsR basisR : List ℕ) (scaleBias : List ℚ)
    (hrefs : ∀ r ∈ uncleanR ++ psfsR ++ basisR, r < h0.length) :
    ∀ r ∈ uncleanR ++ psfsR ++ basisR,
      hread (MultiScaleCleanS h0 uncleanR psfsR basisR scaleBias).1 r
        = hread h0 r := by
  intro r hr
  have hrL : r < h0.length := hrefs r hr
  show hread ((msLoopS h0.length
      ((List.range uncleanR.length).map (fun i => h0.length + 1 + i))
      psfsR basisR scaleBias maxIterations
      ((h0 ++ [(hread h0 (uncleanR.getD 0 0)).map
        (fun row => List.replicate row.length (0 : ℚ))])
        ++ uncleanR.map (hread h0)) 0).1) r = hread h0 r
  rw [msLoopS_frame h0.length _ psfsR basisR scaleBias h0.length le_rfl
      (by
        intro s hs
        obtain ⟨i, _, rfl⟩ := List.mem_map.mp hs
        omega)
      maxIterations _ 0 r hrL]
  unfold hread
  rw [List.append_assoc, List.getD_append _ _ _ _ hrL]

/-- Witness for C7: a three-object heap holding a dirty map, a PSF and a
basis grid; all three are untouched by the run. -/
theorem MultiScaleCleanS_preserves_inputs_witness :
    (∀ r ∈ [0] ++ [1] ++ [2],
      r < ([[[(5 : ℚ)]], [[(7 : ℚ)]], [[(9 : ℚ)]]] : Heap).length) ∧
    (∀ r ∈ [0] ++ [1] ++ [2],
      hread (MultiScaleCleanS [[[(5 : ℚ)]], [[(7 : ℚ)]], [[(9 : ℚ)]]]
        [0] [1] [2] [1]).1 r
        = hread [[[(5 : ℚ)]], [[(7 : ℚ)]], [[(9 : ℚ)]]] r) :=
  ⟨by decide,
    MultiScaleCleanS_preserves_inputs [[[(5 : ℚ)]], [[(7 : ℚ)]], [[(9 : ℚ)]]]
      [0] [1] [2] [1] (by decide)⟩

theorem getD_map_range {α : Type} (n k : ℕ) (f : ℕ → α) (d : α) (hk : k < n) :
    ((List.range n).map f).getD k d = f k := by
  rw [List.getD_eq_getElem?_getD, List.getElem?_map, List.getElem?_range hk]
  rfl

theorem gaussCell_pos (sigma : ℝ) (c x y : ℕ) : 0 < gaussCell sigma c x y := by
  simp only [gaussCell]
  exact Real.exp_pos _

theorem gaussCell_eq (sigma : ℝ) (c x y : ℕ) :
    gaussCell sigma c x y
      = Real.exp (-((((x : ℤ) - (c : ℤ) : ℤ) : ℝ) * (((x : ℤ) - (c : ℤ) : ℤ) : ℝ)
          + (((y : ℤ) - (c : ℤ) : ℤ) : ℝ) * (((y : ℤ) - (c : ℤ) : ℤ) : ℝ))
          / (2 * sigma * sigma)) := by
  simp only [gaussCell]
  rw [Real.mul_self_sqrt (add_nonneg (mul_self_nonneg _) (mul_self_nonneg _))]

theorem sum_map_div (l : List ℝ) (t : ℝ) :
    (l.map (fun v => v / t)).sum = l.sum / t := by
  induction l with
  | nil => simp
  | cons a tl ih => simp only [List.map_cons, List.sum_cons, ih, add_div]

theorem gridSum_div (g : Image ℝ) (t : ℝ) :
    gridSum (g.map (fun row => row.map (fun v => v / t))) = gridSum g / t := by
  induction g with
  | nil => simp [gridSum]
  | cons r g ih =>
      simp only [gridSum, List.map_cons, List.sum_cons] at ih ⊢
      rw [sum_map_div, ih, add_div]

theorem psfGridRaw_sum_pos (s imageSize : ℕ) (hsz : 1 ≤ imageSize) :
    0 < gridSum (psfGridRaw s imageSize) := by
  unfold gridSum psfGridRaw
  apply List.sum_pos
  · intro a ha
    obtain ⟨row, hrow, rfl⟩ := List.mem_map.mp ha
    obtain ⟨xi, hxi, rfl⟩ := List.mem_map.mp hrow
    apply List.sum_pos
    · intro v hv
      obtain ⟨yi, hyi, rfl⟩ := List.mem_map.mp hv
      exact gaussCell_pos _ _ _ _
    · exact List.length_pos.mp (by simpa using hsz)
  · exact List.length_pos.mp (by simpa using hsz)

theorem psfGrid_sum (s imageSize : ℕ) (hsz : 1 ≤ imageSize) :
    gridSum (psfGrid s imageSize) = 1 := by
  have hpos := psfGridRaw_sum_pos s imageSize hsz
  simp only [psfGrid]
  rw [if_pos hpos, gridSum_div, div_self (ne_of_gt hpos)]

/-- C4: for every scale index below the scale count and every image size
at least 1, the synthesized PSF grid (Gaussian with sigma = 1 + s*0.5 from
the image center, divided by its own sum when that sum is positive) sums
to 1.0 within 1e-9; in the real-arithmetic model the normalized sum is
exactly 1, since a grid of positive exponentials has a positive sum. -/
theorem createPSFs_normalized (numScales imageSize s : ℕ)
    (hs : s < numScales) (hsz : 1 ≤ imageSize) :
    |gridSum ((createPSFsFromACB numScales imageSize).getD s []) - 1|
      ≤ 1 / 1000000000 := by
  unfold createPSFsFromACB
  rw [getD_map_range numScales s _ _ hs, psfGrid_sum s imageSize hsz]
  norm_num

/-- Witness for C4 at one scale and a 1 by 1 image. -/
theorem createPSFs_normalized_witness :
    ((0 : ℕ) < 1 ∧ (1 : ℕ) ≤ 1) ∧
    |gridSum ((createPSFsFromACB 1 1).getD 0 []) - 1| ≤ 1 / 1000000000 :=
  ⟨⟨by decide, by decide⟩, createPSFs_normalized 1 1 0 (by decide) (by decide)⟩

/-- C10: with an empty parsed frequency sequence the unique-frequency
count is 0, every amplitude sample fails the i < U guard that the code
checks before the scale-index division, and the dirty-map stack comes back
exactly as initialized: numScales all-zero grids. -/
theorem createDirtyMaps_empty_freqs (amps : List ℝ) (numScales imageSize : ℕ) :
    createDirtyMapsFromACB amps [] numScales imageSize
      = List.replicate numScales (mkGrid imageSize imageSize) := by
  simp only [createDirtyMapsFromACB]
  refine foldl_id _ _ ?_ _
  intro maps i hi
  have hguard : ¬ i < (getUniqueFrequencies []).length := by
    simp [getUniqueFrequencies]
  rw [if_neg hguard]

theorem getD_zipWith_add (r r2 : List ℝ) (hlen : r2.length = r.length) (y : ℕ) :
    (List.zipWith (· + ·) r r2).getD y 0 = r.getD y 0 + r2.getD y 0 := by
  induction r generalizing r2 y with
  | nil =>
      have h2 : r2 = [] := List.length_eq_zero.mp (by simpa using hlen)
      subst h2
      simp
  | cons a t ih =>
      cases r2 with
      | nil => simp at hlen
      | cons b t2 =>
          cases y with
          | zero => rfl
          | succ n =>
              show (List.zipWith (· + ·) t t2).getD n 0
                = t.getD n 0 + t2.getD n 0
              exact ih t2 (by simpa using hlen) n

theorem cellVal_addGrid (g h : Image ℝ) (hsh : shape h = shape g) (x y : ℕ) :
    cellVal (addGrid g h) x y = cellVal g x y + cellVal h x y := by
  induction g generalizing h x with
  | nil =>
      have h2 : h = [] := by
        have := hsh
        simp only [shape] at this
        exact List.map_eq_nil.mp this
      subst h2
      simp [addGrid, cellVal]
  | cons r g ih =>
      cases h with
      | nil => simp [shape] at hsh
      | cons r2 h2 =>
          obtain ⟨hl, hsh2⟩ : r2.length = r.length ∧ shape h2 = shape g := by
            simpa [shape] using hsh
          show cellVal (List.zipWith _ (r :: g) (r2 :: h2)) x y = _
          rw [List.zipWith_cons_cons]
          cases x with
          | zero => exact getD_zipWith_add r r2 hl y
          | succ n =>
              show cellVal (addGrid g h2) n y = cellVal g n y + cellVal h2 n y
              exact ih h2 hsh2 n

theorem shape_addGrid (g h : Image ℝ) (hsh : shape h = shape g) :
    shape (addGrid g h) = shape g := by
  induction g generalizing h with
  | nil =>
      have h2 : h = [] := by
        have := hsh
        simp only [shape] at this
        exact List.map_eq_nil.mp this
      subst h2
      rfl
  | cons r g ih =>
      cases h with
      | nil => simp [shape] at hsh
      | cons r2 h2 =>
          obtain ⟨hl, hsh2⟩ : r2.length = r.length ∧ shape h2 = shape g := by
            simpa [shape] using hsh
          show shape (List.zipWith _ (r :: g) (r2 :: h2)) = _
          rw [List.zipWith_cons_cons]
          show ((List.zipWith (· + ·) r r2).length :: shape (addGrid g h2))
            = r.length :: shape g
          rw [List.length_zipWith, hl, min_self, ih h2 hsh2]

theorem shape_sampleContribution (amp : ℝ) (si imageSize : ℕ) :
    shape (sampleContribution amp si imageSize)
      = List.replicate imageSize imageSize := by
  unfold shape sampleContribution
  rw [List.map_map]
  refine List.eq_replicate.mpr ⟨by simp, ?_⟩
  intro b hb
  obtain ⟨xi, hxi, rfl⟩ := List.mem_map.mp hb
  simp

theorem cellVal_sampleContribution (amp : ℝ) (si imageSize x y : ℕ)
    (hx : x < imageSize) (hy : y < imageSize) :
    cellVal (sampleContribution amp si imageSize) x y
      = amp * gaussCell (1 + (si : ℝ) * 2) (imageSize / 2) x y := by
  unfold cellVal sampleContribution
  rw [getD_map_range _ _ _ _ hx, getD_map_range _ _ _ _ hy]

theorem sampleScale_lt (i U numScales : ℕ) (hN : 1 ≤ numScales) :
    sampleScale i U numScales < numScales := by
  simp only [sampleScale]
  split <;> omega

theorem dirty_fold_cell (amps : List ℝ) (U numScales imageSize : ℕ)
    (hN : 1 ≤ numScales) (s x y : ℕ) (hs : s < numScales)
    (hx : x < imageSize) (hy : y < imageSize) :
    ∀ (n : ℕ) (maps : PFS ℝ),
      maps.length = numScales →
      (∀ s' < numScales,
        shape (maps.getD s' []) = List.replicate imageSize imageSize) →
      (((List.range n).foldl
          (fun maps i =>
            if i < U then
              maps.set (sampleScale i U numScales)
                (addGrid (maps.getD (sampleScale i U numScales) [])
                  (sampleContribution (amps.getD i 0)
                    (sampleScale i U numScales) imageSize))
            else maps) maps).length = numScales ∧
        (∀ s' < numScales,
          shape (((List.range n).foldl
            (fun maps i =>
              if i < U then
                maps.set (sampleScale i U numScales)
                  (addGrid (maps.getD (sampleScale i U numScales) [])
                    (sampleContribution (amps.getD i 0)
                      (sampleScale i U numScales) imageSize))
              else maps) maps).getD s' [])
            = List.replicate imageSize imageSize) ∧
        cellVal (((List.range n).foldl
          (fun maps i =>
            if i < U then
              maps.set (sampleScale i U numScales)
                (addGrid (maps.getD (sampleScale i U numScales) [])
                  (sampleContribution (amps.getD i 0)
                    (sampleScale i U numScales) imageSize))
            else maps) maps).getD s []) x y
          = cellVal (maps.getD s []) x y
            + ∑ i ∈ Finset.range n,
                if i < U ∧ sampleScale i U numScales = s
                then amps.getD i 0
                  * gaussCell (1 + (s : ℝ) * 2) (imageSize / 2) x y
                else 0) := by
  intro n
  induction n with
  | zero =>
      intro maps hlen hshape
      exact ⟨hlen, hshape, by simp⟩
  | succ n ih =>
      intro maps hlen hshape
      obtain ⟨hlen2, hshape2, hcell2⟩ := ih maps hlen hshape
      rw [List.range_succ, List.foldl_append, List.foldl_cons, List.foldl_nil]
      set M := (List.range n).foldl
        (fun maps i =>
          if i < U then
            maps.set (sampleScale i U numScales)
              (addGrid (maps.getD (sampleScale i U numScales) [])
                (sampleContribution (amps.getD i 0)
                  (sampleScale i U numScales) imageSize))
          else maps) maps with hM
      by_cases hguard : n < U
      · rw [if_pos hguard]
        have hsi := sampleScale_lt n U numScales hN
        have hshC := shape_sampleContribution (amps.getD n 0)
          (sampleScale n U numScales) imageSize
        have hshG : shape (addGrid (M.getD (sampleScale n U numScales) [])
            (sampleContribution (amps.getD n 0)
              (sampleScale n U numScales) imageSize))
            = List.replicate imageSize imageSize := by
          rw [shape_addGrid _ _ (by rw [hshC, hshape2 _ hsi])]
          exact hshape2 _ hsi
        refine ⟨by rw [List.length_set, hlen2], ?_, ?_⟩
        · intro s' hs'
          rw [getD_set_gen]
          by_cases hss : sampleScale n U numScales = s' ∧ s' < M.length
          · rw [if_pos hss]
            exact hshG
          · rw [if_neg hss]
            exact hshape2 s' hs'
        · rw [Finset.sum_range_succ, getD_set_gen]
          by_cases hss : sampleScale n U numScales = s
          · subst hss
            rw [if_pos ⟨rfl, by omega⟩,
              cellVal_addGrid _ _ (by rw [hshC, hshape2 _ hsi]) x y,
              hcell2, cellVal_sampleContribution _ _ _ _ _ hx hy,
              if_pos ⟨hguard, rfl⟩]
            ring
          · rw [if_neg (fun hc => hss hc.1), hcell2,
              if_neg (fun hc => hss hc.2), add_zero]
      · rw [if_neg hguard]
        refine ⟨hlen2, hshape2, ?_⟩
        rw [Finset.sum_range_succ, hcell2,
          if_neg (fun hc => hguard hc.1), add_zero]

/-- C2: every amplitude sample at index i below the unique-frequency count
U is routed to the single scale sampleScale i U numScales (the floor of
i/U*numScales clamped to numScales-1), contributing
amplitude * exp(-distance^2 / (2*sigma^2)) with sigma = 1 + scaleIndex*2
and distance measured from the image center into every cell of that one
dirty map; samples with i >= U contribute nothing; each dirty map cell is
exactly the sum of the contributions routed to its scale. -/
theorem createDirtyMaps_spec (amps : List ℝ) (freqs : List ℚ)
    (numScales imageSize : ℕ)
    (hU : 1 ≤ (getUniqueFrequencies freqs).length)
    (hN : 1 ≤ numScales) (hsz : 1 ≤ imageSize)
    (s x y : ℕ) (hs : s < numScales) (hx : x < imageSize) (hy : y < imageSize) :
    cellVal ((createDirtyMapsFromACB amps freqs numScales imageSize).getD s [])
        x y
      = ∑ i ∈ Finset.range amps.length,
          if i < (getUniqueFrequencies freqs).length ∧
              sampleScale i (getUniqueFrequencies freqs).length numScales = s
          then amps.getD i 0 * gaussCell (1 + (s : ℝ) * 2) (imageSize / 2) x y
          else 0 := by
  simp only [createDirtyMapsFromACB]
  obtain ⟨hlen, hshape, hcell⟩ :=
    dirty_fold_cell amps (getUniqueFrequencies freqs).length numScales
      imageSize hN s x y hs hx hy amps.length
      (List.replicate numScales (mkGrid imageSize imageSize))
      (by simp)
      (by
        intro s' hs'
        rw [getD_replicate_eq, if_pos hs']
        exact shape_mkGrid imageSize imageSize)
  rw [hcell, getD_replicate_eq, if_pos hs, cellVal_mkGrid, zero_add]

/-- Witness for C2 at one sample, one unique frequency, one scale and a
1 by 1 image. -/
theorem createDirtyMaps_spec_witness :
    (1 ≤ (getUniqueFrequencies [(5 : ℚ)]).length ∧ (1 : ℕ) ≤ 1 ∧
      (0 : ℕ) < 1) ∧
    cellVal ((createDirtyMapsFromACB [(1 : ℝ)] [(5 : ℚ)] 1 1).getD 0 []) 0 0
      = ∑ i ∈ Finset.range ([(1 : ℝ)]).length,
          if i < (getUniqueFrequencies [(5 : ℚ)]).length ∧
              sampleScale i (getUniqueFrequencies [(5 : ℚ)]).length 1 = 0
          then ([(1 : ℝ)]).getD i 0
            * gaussCell (1 + ((0 : ℕ) : ℝ) * 2) (1 / 2) 0 0
          else 0 :=
  ⟨⟨by decide, by decide, by decide⟩,
    createDirtyMaps_spec [(1 : ℝ)] [(5 : ℚ)] 1 1 (by decide) (by decide)
      (by decide) 0 0 0 (by decide) (by decide) (by decide)⟩

theorem isPrefixOf_exists {l1 l2 : List Char} (h : l1.isPrefixOf l2 = true) :
    ∃ t, l1 ++ t = l2 := by
  induction l1 generalizing l2 with
  | nil => exact ⟨l2, rfl⟩
  | cons a t1 ih =>
      cases l2 with
      | nil => simp [List.isPrefixOf] at h
      | cons b t2 =>
          simp only [List.isPrefixOf, Bool.and_eq_true, beq_iff_eq] at h
          obtain ⟨rfl, h2⟩ := h
          obtain ⟨t, ht⟩ := ih h2
          exact ⟨t, by rw [List.cons_append, ht]⟩

theorem not_source_of_bandfreq (line : String)
    (h : hasPref "bandfreq:" line = true) :
    hasPref "source:" line = false := by
  unfold hasPref at h ⊢
  obtain ⟨rest, hrest⟩ := isPrefixOf_exists h
  cases h2 : List.isPrefixOf ("source:".data) line.data with
  | false => rfl
  | true =>
      exfalso
      obtain ⟨rest2, hrest2⟩ := isPrefixOf_exists h2
      have h3 : ("source:".data) ++ rest2 = ("bandfreq:".data) ++ rest :=
        hrest2.trans hrest.symm
      have e1 : "source:".data = 's' :: "ource:".data := rfl
      have e2 : "bandfreq:".data = 'b' :: "andfreq:".data := rfl
      rw [e1, e2, List.cons_append, List.cons_append] at h3
      injection h3 with h4 h5
      exact absurd h4 (by decide)

theorem bandfreq_fold (parts : List String) (L : List (ℕ × String))
    (d : ACBData) :
    ((L.foldl (fun d p =>
        if p.2 = "bandfreq:" ∧ p.1 + 2 < parts.length then
          match parseFloat (parts.getD (p.1 + 1) "") with
          | some freq => { d with frequencies := d.frequencies ++ [freq] }
          | none => d
        else if p.2 = "polar:" ∧ p.1 + 1 < parts.length then
          { d with polarizations :=
              d.polarizations ++ [parts.getD (p.1 + 1) ""] }
        else d) d).frequencies
      = d.frequencies ++ L.filterMap (fun p =>
          if p.2 = "bandfreq:" ∧ p.1 + 2 < parts.length
          then parseFloat (parts.getD (p.1 + 1) "") else none))
    ∧ ((L.foldl (fun d p =>
        if p.2 = "bandfreq:" ∧ p.1 + 2 < parts.length then
          match parseFloat (parts.getD (p.1 + 1) "") with
          | some freq => { d with frequencies := d.frequencies ++ [freq] }
          | none => d
        else if p.2 = "polar:" ∧ p.1 + 1 < parts.length then
          { d with polarizations :=
              d.polarizations ++ [parts.getD (p.1 + 1) ""] }
        else d) d).polarizations
      = d.polarizations ++ L.filterMap (fun p =>
          if p.2 = "polar:" ∧ p.1 + 1 < parts.length
          then some (parts.getD (p.1 + 1) "") else none)) := by
  induction L generalizing d with
  | nil => simp
  | cons p t ih =>
      rw [List.foldl_cons, List.filterMap_cons, List.filterMap_cons]
      by_cases h1 : p.2 = "bandfreq:" ∧ p.1 + 2 < parts.length
      · have hnp : ¬ (p.2 = "polar:" ∧ p.1 + 1 < parts.length) := by
          rintro ⟨hp, _⟩
          rw [h1.1] at hp
          exact absurd hp (by decide)
        rw [if_pos h1, if_pos h1, if_neg hnp]
        rcases hpf : parseFloat (parts.getD (p.1 + 1) "") with _ | freq
        · obtain ⟨ihf, ihp⟩ := ih d
          exact ⟨ihf, ihp⟩
        · obtain ⟨ihf, ihp⟩ :=
            ih { d with frequencies := d.frequencies ++ [freq] }
          refine ⟨?_, ?_⟩
          · rw [ihf]
            simp
          · rw [ihp]
      · by_cases h2 : p.2 = "polar:" ∧ p.1 + 1 < parts.length
        · rw [if_neg h1, if_neg h1, if_pos h2, if_pos h2]
          obtain ⟨ihf, ihp⟩ :=
            ih { d with polarizations :=
              d.polarizations ++ [parts.getD (p.1 + 1) ""] }
          refine ⟨?_, ?_⟩
          · rw [ihf]
          · rw [ihp]
            simp
        · rw [if_neg h1, if_neg h1, if_neg h2, if_neg h2]
          exact ih d

/-- C9 (amended): for every line after the first beginning with bandfreq:,
the parser walks the whitespace tokens; at each bandfreq: token it appends
the float parsed from the next token only when a further token follows it
(the source requires index + 2 < token count, so a line whose last token
is the value drops the frequency), silently skipping values that fail to
parse, and at each polar: token followed by a token it appends that token
to the polarization list. -/
theorem processLine_bandfreq (d : ACBData) (lineNum : ℕ) (line : String)
    (hn : lineNum ≠ 1) (hband : hasPref "bandfreq:" line = true) :
    (processLine d lineNum line).frequencies
      = d.frequencies ++ (fields line).enum.filterMap (fun p =>
          if p.2 = "bandfreq:" ∧ p.1 + 2 < (fields line).length
          then parseFloat ((fields line).getD (p.1 + 1) "") else none)
    ∧ (processLine d lineNum line).polarizations
      = d.polarizations ++ (fields line).enum.filterMap (fun p =>
          if p.2 = "polar:" ∧ p.1 + 1 < (fields line).length
          then some ((fields line).getD (p.1 + 1) "") else none) := by
  have hsrc : hasPref "source:" line = false := not_source_of_bandfreq line hband
  simp only [processLine, if_neg hn, hsrc, hband, Bool.false_eq_true,
    if_false, if_true]
  exact bandfreq_fold (fields line) (fields line).enum d

/-- Witness for C9 (amended) on the line "bandfreq: 2.5 polar: RR". -/
theorem processLine_bandfreq_witness :
    ((2 : ℕ) ≠ 1 ∧ hasPref "bandfreq:" "bandfreq: 2.5 polar: RR" = true) ∧
    ((processLine emptyACB 2 "bandfreq: 2.5 polar: RR").frequencies
      = emptyACB.frequencies
        ++ (fields "bandfreq: 2.5 polar: RR").enum.filterMap (fun p =>
          if p.2 = "bandfreq:" ∧
              p.1 + 2 < (fields "bandfreq: 2.5 polar: RR").length
          then parseFloat
            ((fields "bandfreq: 2.5 polar: RR").getD (p.1 + 1) "") else none)
    ∧ (processLine emptyACB 2 "bandfreq: 2.5 polar: RR").polarizations
      = emptyACB.polarizations
        ++ (fields "bandfreq: 2.5 polar: RR").enum.filterMap (fun p =>
          if p.2 = "polar:" ∧
              p.1 + 1 < (fields "bandfreq: 2.5 polar: RR").length
          then some ((fields "bandfreq: 2.5 polar: RR").getD (p.1 + 1) "")
          else none)) :=
  ⟨⟨by decide, by decide⟩,
    processLine_bandfreq emptyACB 2 "bandfreq: 2.5 polar: RR"
      (by decide) (by decide)⟩

/-- C9 counterexample: the claim as stated fails on the source.  On the
line "bandfreq: 3.5" the token after bandfreq: parses as 3.5, yet the
parser appends nothing, because the source requires a further token after
the value (i + 2 < len(parts)) before it parses the frequency. -/
theorem processLine_bandfreq_counterexample :
    parseFloat "3.5" = some (7 / 2) ∧
    (processLine emptyACB 2 "bandfreq: 3.5").frequencies = [] := by
  constructor
  · simp +decide [parseFloat, splitDotAux, parseDigits]
    norm_num
  · decide

end Clean
